import Mathlib

/-!
# Verification of the dialogue-rs core

Shallow embedding of the `dialogue-rs` crate: the document model
(`src/dialogue-rs/src/script/*.rs`), the arena tree (`tree.rs`), the tree
builder and execution engine (`state_tree.rs`), together with a text parser
modelled from the specification (the pest grammar file `script.pest` is not
part of the sources; formatting is embedded from the `Display`
implementations, which are).

Conventions: Rust `u16` node ids are modelled as `Nat` (id allocation in a
single `StateTree::new` run never overflows for the documents considered, and
no claim depends on wrap-around); the process-global id generator is threaded
as a per-tree counter starting at 0, matching the ids a fresh process
allocates for its first tree.  `HashMap` is modelled as an association list
with overwrite-on-insert, which realizes the same lookup function.  Fallible
operations return `Except`/`Option`; a Rust panic is a distinct outcome
(`Option.none` for constructors, a dedicated `panic` result for `choose`).
-/

namespace Dialogue

/-! ## Document model (script/command.rs, marker.rs, line.rs, element.rs) -/

/-- `Command { name, prefix, suffix }` from `script/command.rs`.  The Rust
field names `prefix`/`suffix` are shortened to `pfx`/`sfx`. -/
structure Command where
  name : String
  pfx : Option String
  sfx : Option String
  deriving Repr, DecidableEq

/-- `Command::is_choice` from `script/command.rs`. -/
def Command.isChoice (c : Command) : Bool :=
  c.name = "CHOICE"

/-- `Line` from `script/line.rs`: a command or a marker (a marker is just its
name, `Marker(Cow<str>)`). -/
inductive Line where
  | command (c : Command)
  | marker (name : String)
  deriving Repr, DecidableEq

/-- Whether a `Line` is a command line. -/
def Line.isCommand : Line → Bool
  | .command _ => true
  | .marker _ => false

mutual

/-- `TopLevelElement` from `script/element.rs`: a line, a block
(`script/block.rs`), or a comment (carrying the text after the leading
`//`). -/
inductive TopLevelElement where
  | line (l : Line)
  | block (b : Block)
  | comment (text : String)

/-- `Block { inner: Vec<TopLevelElement> }` from `script/block.rs`, with the
vector of inner elements as a cons-list (so that recursion over the mutual
structure is structural). -/
inductive Block where
  | nil
  | cons (e : TopLevelElement) (rest : Block)

end

/-- Build a `Block` from a list of elements (notation helper for concrete
documents). -/
def Block.ofList : List TopLevelElement → Block
  | [] => .nil
  | e :: es => .cons e (Block.ofList es)

/-- `Script(pub Vec<TopLevelElement>)` from `script.rs`, with the same
cons-list representation as `Block`. -/
abbrev Script := Block

/-! ## Arena tree (tree.rs) -/

/-- `NodeId(u16)` from `tree.rs`, modelled as `Nat`. -/
abbrev NodeId := Nat

/-- `Tree<T>` from `tree.rs`: `branches: Vec<Branch<T>>` (a branch is an
`(id, data)` pair) and `parent_child_relationships: Vec<(NodeId, NodeId)>`.
`nextId` threads the id generator (`ID_GENERATOR` / `get_next_id`). -/
structure Tree (T : Type) where
  branches : List (NodeId × T)
  parentChildRelationships : List (NodeId × NodeId)
  nextId : NodeId
  deriving Repr, DecidableEq

/-- `Tree::new`. -/
def Tree.new (T : Type) : Tree T :=
  { branches := [], parentChildRelationships := [], nextId := 0 }

/-- `Tree::first`: id and data of the first branch, `None` when empty. -/
def Tree.first (t : Tree T) : Option (NodeId × T) :=
  t.branches.head?

/-- `Tree::push`: append a root branch, return the updated tree and new id. -/
def Tree.push (t : Tree T) (data : T) : Tree T × NodeId :=
  let id := t.nextId
  ({ t with branches := t.branches ++ [(id, data)], nextId := id + 1 }, id)

/-- `Tree::push_with_parent`: append a branch and record the parent/child
relationship (the debug assertion that the parent exists is not claim
relevant and is omitted, as in release builds). -/
def Tree.pushWithParent (t : Tree T) (data : T) (parent : NodeId) : Tree T × NodeId :=
  let id := t.nextId
  ({ t with
      branches := t.branches ++ [(id, data)],
      parentChildRelationships := t.parentChildRelationships ++ [(parent, id)],
      nextId := id + 1 }, id)

/-- `Tree::get_by_id`: linear search of `branches`. -/
def Tree.getById (t : Tree T) (id : NodeId) : Option T :=
  (t.branches.find? (fun b => b.1 = id)).map (·.2)

/-- `Tree::children_of`: relationships filtered on the parent, resolved
through `get_by_id` (dropping - never in practice - unresolvable ids). -/
def Tree.childrenOf (t : Tree T) (id : NodeId) : List (NodeId × T) :=
  (t.parentChildRelationships.filter (fun p => p.1 = id)).filterMap
    (fun p => (t.getById p.2).map (fun data => (p.2, data)))

/-- `Tree::parent_of`: first relationship whose child is `id`. -/
def Tree.parentOf (t : Tree T) (id : NodeId) : Option (NodeId × T) :=
  (t.parentChildRelationships.find? (fun p => p.2 = id)).bind
    (fun p => (t.getById p.1).map (fun data => (p.1, data)))

/-- The sibling-scanning loop inside `Tree::next_sibling_of`: walk the
children, and once `id` has been seen, return the next child. -/
def Tree.nextSiblingLoop (t : Tree T) (id : NodeId) :
    Bool → List (NodeId × T) → Option (NodeId × T)
  | _, [] => none
  | true, (childId, _) :: _ => (t.getById childId).map (fun d => (childId, d))
  | false, (childId, _) :: rest => t.nextSiblingLoop id (childId = id) rest

/-- `Tree::next_sibling_of`: requires a parent (`self.parent_of(id)?`), then
scans that parent's children. -/
def Tree.nextSiblingOf (t : Tree T) (id : NodeId) : Option (NodeId × T) :=
  (t.parentOf id).bind (fun p => t.nextSiblingLoop id false (t.childrenOf p.1))

/-- The recursion of `Tree::next`, bounded by fuel.  The Rust recursion
ascends the parent chain; in any tree built through `push`/`pushWithParent`
(parents precede children) the chain is shorter than `branches.length`, so
the fuel used by `Tree.next` never runs out on such trees. -/
def Tree.nextGo (t : Tree T) : Nat → NodeId → Option (NodeId × T)
  | 0, _ => none
  | fuel + 1, id =>
    (t.nextSiblingOf id).orElse
      (fun _ => (t.parentOf id).bind (fun p => t.nextGo fuel p.1))

/-- `Tree::next`: document-order successor (next sibling, else the parent's
recursive `next`). -/
def Tree.next (t : Tree T) (id : NodeId) : Option (NodeId × T) :=
  t.nextGo (t.branches.length + 1) id

/-! ## Execution engine (state_tree.rs) -/

/-- `TreeState` from `state_tree.rs`. -/
inductive TreeState where
  | awaitingChoice (nodes : List NodeId)
  | awaitingTick (node : NodeId)
  | done
  deriving Repr, DecidableEq

/-- `Tick { number, commands }` from `state_tree.rs`. -/
structure Tick where
  number : Nat
  commands : List Command
  deriving Repr, DecidableEq

/-- Association-list model of `HashMap<String, NodeId>::insert`
(overwrite-on-collision). -/
def insertA (l : List (String × NodeId)) (k : String) (v : NodeId) :
    List (String × NodeId) :=
  match l with
  | [] => [(k, v)]
  | (k₀, v₀) :: rest => if k₀ = k then (k, v) :: rest else (k₀, v₀) :: insertA rest k v

/-- Association-list model of `HashMap<String, NodeId>::get`. -/
def lookupA (l : List (String × NodeId)) (k : String) : Option NodeId :=
  (l.find? (fun p => p.1 = k)).map (·.2)

/-- `StateTree` from `state_tree.rs` (the `Rc` around commands is erased). -/
structure StateTree where
  tree : Tree Command
  markerToNodeId : List (String × NodeId)
  state : TreeState
  tickCount : Nat
  deriving Repr, DecidableEq

/-- The mutable accumulator of `StateTree::new`: the tree, the marker table,
`last_id` and `marker_awaiting_node_id`. -/
structure BuildState where
  tree : Tree Command
  markerToNodeId : List (String × NodeId)
  lastId : Option NodeId
  markerAwaiting : Option String
  deriving Repr, DecidableEq

mutual

/-- The `traverse` closure inside `StateTree::new`.  Note that the `Block`
arm recurses with the *same* `parent` argument it received (the source passes
`parent`, not `*last_id`, into the recursive call). -/
def traverseElem (parent : Option NodeId) (st : BuildState) :
    TopLevelElement → BuildState
  | .line (.command c) =>
    let (tree, nodeId) :=
      match parent with
      | some parentId => st.tree.pushWithParent c parentId
      | none => st.tree.push c
    let markerToNodeId :=
      match st.markerAwaiting with
      | some m => insertA st.markerToNodeId m nodeId
      | none => st.markerToNodeId
    { tree, markerToNodeId, lastId := some nodeId, markerAwaiting := none }
  | .line (.marker m) =>
    -- debug_assert!(marker_awaiting_node_id.is_none()) is a release no-op
    { st with markerAwaiting := some m }
  | .block inner => traverseList parent st inner
  | .comment _ => st

/-- Iteration of `traverse` over a block's (or the script's) elements. -/
def traverseList (parent : Option NodeId) (st : BuildState) :
    Block → BuildState
  | .nil => st
  | .cons e es => traverseList parent (traverseElem parent st e) es

end

/-- The initial `BuildState` of `StateTree::new`. -/
def BuildState.init : BuildState :=
  { tree := Tree.new Command, markerToNodeId := [], lastId := none,
    markerAwaiting := none }

/-- `StateTree::new`.  The source unwraps `tree.first()` with
`.expect("a first node exists")`; that panic is modelled as `none`. -/
def StateTree.new (script : Script) : Option StateTree :=
  let bs := traverseList none BuildState.init script
  (bs.tree.first).map (fun first =>
    { tree := bs.tree, markerToNodeId := bs.markerToNodeId,
      state := .awaitingTick first.1, tickCount := 0 })

/-- `StateTree::tick`.  Returns the (possibly updated) engine together with
the `Result`; on `Err` the engine is returned exactly as the `&mut self`
borrow leaves it. -/
def StateTree.tick (st : StateTree) : StateTree × Except String Tick :=
  match st.state with
  | .awaitingChoice _ =>
    (st, .error "a choice must be made before tick can be called again")
  | .awaitingTick currentId =>
    let number := st.tickCount
    let tickCount := st.tickCount + 1
    let childIds := (st.tree.childrenOf currentId).map (·.1)
    match st.tree.getById currentId with
    | none => ({ st with tickCount }, .error "no tree branch with that ID")
    | some command =>
      let commands := [command]
      match childIds with
      | [] =>
        if command.isChoice then
          ({ st with state := .awaitingChoice [], tickCount },
            .ok { number, commands })
        else
          match st.tree.next currentId with
          | some (nextSibling, _) =>
            ({ st with state := .awaitingTick nextSibling, tickCount },
              .ok { number, commands })
          | none =>
            ({ st with state := .done, tickCount }, .ok { number, commands })
      | firstChildNodeId :: _ =>
        match st.tree.getById firstChildNodeId with
        | none => ({ st with tickCount }, .error "no tree branch with that ID")
        | some firstChild =>
          if firstChild.isChoice then
            ({ st with state := .awaitingChoice childIds, tickCount },
              .ok { number, commands })
          else
            ({ st with state := .awaitingTick firstChildNodeId, tickCount },
              .ok { number, commands })
  | .done => (st, .ok { number := st.tickCount, commands := [] })

/-- Outcome of `StateTree::choose`: `Ok(())`, `Err(...)`, or the panic of the
unchecked index expression `children[choice]`. -/
inductive ChooseResult where
  | ok
  | err (msg : String)
  | panic
  deriving Repr, DecidableEq

/-- Whether a `ChooseResult` is an `Err` value. -/
def ChooseResult.isErr : ChooseResult → Bool
  | .err _ => true
  | _ => false

/-- `StateTree::choose`.  `children[choice]` is Rust vector indexing, which
panics when out of bounds. -/
def StateTree.choose (st : StateTree) (choice : Nat) : StateTree × ChooseResult :=
  match st.state with
  | .awaitingTick _ => (st, .err "a choice may not be made until one is presented")
  | .awaitingChoice children =>
    match children[choice]? with
    | some childId => ({ st with state := .awaitingTick childId }, .ok)
    | none => (st, .panic)
  | .done => (st, .err "a choice may not be made after the script has ended")

/-- `StateTree::goto`. -/
def StateTree.goto (st : StateTree) (marker : String) :
    StateTree × Except String Unit :=
  match lookupA st.markerToNodeId marker with
  | some nodeId => ({ st with state := .awaitingTick nodeId }, .ok ())
  | none => (st, .error "marker does not exist")

/-! ## Document-order flattening and a flat view of the builder

Because the `Block` arm of `traverse` passes its `parent` argument through
unchanged, the builder's effect on a document equals its effect on the
flattened sequence of the document's lines.  The following definitions give
that flat view; the equivalence is proved below. -/

mutual

/-- All lines of an element in document order (comments contribute none). -/
def flattenElem : TopLevelElement → List Line
  | .line l => [l]
  | .block inner => flattenList inner
  | .comment _ => []

/-- All lines of an element list in document order. -/
def flattenList : Block → List Line
  | .nil => []
  | .cons e es => flattenElem e ++ flattenList es

end

/-- The commands among a line list, in order. -/
def commandsOf (ls : List Line) : List Command :=
  ls.filterMap (fun l => match l with | .command c => some c | .marker _ => none)

/-- Number of command lines in a line list. -/
def countCommands (ls : List Line) : Nat :=
  (ls.filter Line.isCommand).length

/-- `(n, a₀), (n+1, a₁), ...`: the ids `Tree.push` hands out in sequence. -/
def enumFromN (n : Nat) : List α → List (Nat × α)
  | [] => []
  | a :: as => (n, a) :: enumFromN (n + 1) as

/-- One line of the flat view of `traverse` (the `Line` arm with
`parent = none`, which is the only way `traverse` is ever invoked). -/
def flatLineStep (st : BuildState) : Line → BuildState
  | .command c =>
    let (tree, nodeId) := st.tree.push c
    { tree,
      markerToNodeId :=
        match st.markerAwaiting with
        | some m => insertA st.markerToNodeId m nodeId
        | none => st.markerToNodeId,
      lastId := some nodeId, markerAwaiting := none }
  | .marker m => { st with markerAwaiting := some m }

/-- Folding the flat view over a line list. -/
def flatLineFold (st : BuildState) : List Line → BuildState
  | [] => st
  | l :: ls => flatLineFold (flatLineStep st l) ls

/-! ## Text parser (modelled from the spec) and formatter (from `Display`)

The pest grammar file `script.pest` referenced by `script/parser.rs` is not
among the sources, so the text-to-document step is modelled from the spec:
indentation unit of 4 spaces per nesting level, command syntax
`[PREFIX ]|NAME|[ SUFFIX]`, marker syntax `%NAME%` with `NAME` matching
`[A-Z-]+`, comment syntax `//` to end of line, one element per text line,
fully blank lines discarded, a line one level deeper than its predecessor
opening a nested block.  The formatting side is embedded from the `Display`
implementations in `script.rs`, `script/block.rs`, `script/line.rs`,
`script/command.rs` and `script/marker.rs` (the missing
`script/comment.rs` is modelled from the spec's comment syntax). -/

/-- Split characters into lines at every newline (`"a\nb"` gives
`[a-chars, b-chars]`; a trailing newline yields a final empty entry). -/
def splitLines : List Char → List (List Char)
  | [] => [[]]
  | c :: rest =>
    match splitLines rest with
    | [] => []
    | l :: ls => if c = '\n' then [] :: l :: ls else (c :: l) :: ls

/-- Inverse of `splitLines`: interleave newlines between the entries. -/
def joinLines : List (List Char) → List Char
  | [] => []
  | [l] => l
  | l :: l₂ :: ls => l ++ '\n' :: joinLines (l₂ :: ls)

/-- Count and strip complete groups of 4 leading spaces (the spec's
indentation unit). -/
def stripIndent : List Char → Nat × List Char
  | ' ' :: ' ' :: ' ' :: ' ' :: rest =>
    let (k, content) := stripIndent rest
    (k + 1, content)
  | cs => (0, cs)

/-- Modelled from the spec: the character class of command and marker names
(`ALL-CAPS-KEBAB-CASE`, `[A-Z-]+`). -/
def isNameChar (c : Char) : Bool :=
  ('A' ≤ c && c ≤ 'Z') || c = '-'

/-- Split a character list at its first pipe; fails when no pipe occurs. -/
def splitPipe : List Char → Option (List Char × List Char)
  | [] => none
  | c :: rest =>
    if c = '|' then some ([], rest)
    else (splitPipe rest).map (fun p => (c :: p.1, p.2))

/-- Modelled from the spec: the optional `PREFIX ` before the first pipe of
a command (a nonempty prefix followed by a single separating space). -/
def parsePfx (cs : List Char) : Option (Option String) :=
  if cs.isEmpty then some none
  else if cs.getLast? = some ' ' then
    if cs.dropLast.isEmpty then none else some (some (String.mk cs.dropLast))
  else none

/-- Modelled from the spec: the optional ` SUFFIX` after the closing pipe of
a command (a single separating space, then pipe-free text). -/
def parseSfx (cs : List Char) : Option (Option String) :=
  match cs with
  | [] => some none
  | c :: rest =>
    if c = ' ' then
      if rest.all (fun ch => ch ≠ '|') then some (some (String.mk rest))
      else none
    else none

/-- Modelled from the spec: parse `[PREFIX ]|NAME|[ SUFFIX]`. -/
def parseCommandChars (cs : List Char) : Option Command :=
  match splitPipe cs with
  | none => none
  | some (before, rest₁) =>
    match splitPipe rest₁ with
    | none => none
    | some (name, rest₂) =>
      if name.isEmpty then none
      else if !name.all isNameChar then none
      else
        match parsePfx before, parseSfx rest₂ with
        | some pfx, some sfx => some ⟨String.mk name, pfx, sfx⟩
        | _, _ => none

/-- Modelled from the spec: parse `%NAME%` with `NAME` in `[A-Z-]+`. -/
def parseMarkerChars (cs : List Char) : Option String :=
  match cs with
  | [] => none
  | c :: rest =>
    if c = '%' then
      match rest.getLast? with
      | some l =>
        if l = '%' then
          if rest.dropLast.isEmpty then none
          else if rest.dropLast.all isNameChar then
            some (String.mk rest.dropLast)
          else none
        else none
      | none => none
    else none

/-- A single parsed text line: a script line or a comment. -/
inductive FlatLine where
  | line (l : Line)
  | comment (text : String)

/-- The element a parsed line contributes at its own nesting level. -/
def toElem : FlatLine → TopLevelElement
  | .line l => .line l
  | .comment t => .comment t

/-- Modelled from the spec: classify one line's content (after
indentation).  A line starting `//` is a comment, a line starting `%` is a
marker, anything else is a command. -/
def parseContentChars (cs : List Char) : Option FlatLine :=
  match cs with
  | [] => none
  | c :: rest =>
    if c = '/' then
      match rest with
      | c₂ :: rest₂ =>
        if c₂ = '/' then some (.comment (String.mk rest₂)) else none
      | [] => none
    else if c = '%' then
      (parseMarkerChars (c :: rest)).map (fun m => .line (.marker m))
    else
      (parseCommandChars (c :: rest)).map (fun cm => .line (.command cm))

/-- Parse one text line into its nesting level and content. -/
def parseIndentedLine (l : List Char) : Option (Nat × FlatLine) :=
  (parseContentChars (stripIndent l).2).map (fun fl => ((stripIndent l).1, fl))

/-- Modelled from the spec: build nested elements from levelled lines.  At
level `d`, a line at level `d` is an element, a line at level `d + 1` opens a
block whose first element it becomes, a shallower line ends the current
block, and a jump of two or more levels is rejected.  `fuel` bounds the
recursion and is chosen large enough at the call site. -/
def parseElemsF : Nat → Nat → List (Nat × FlatLine) →
    Option (Block × List (Nat × FlatLine))
  | 0, _, ls => match ls with | [] => some (.nil, []) | _ :: _ => none
  | _ + 1, _, [] => some (.nil, [])
  | fuel + 1, d, (l, c) :: rest =>
    if l < d then some (.nil, (l, c) :: rest)
    else if l = d then
      match parseElemsF fuel d rest with
      | some (es, rem) => some (.cons (toElem c) es, rem)
      | none => none
    else if l = d + 1 then
      match parseElemsF fuel (d + 1) rest with
      | some (inner, rem) =>
        match parseElemsF fuel d rem with
        | some (es, rem₂) =>
          some (.cons (.block (.cons (toElem c) inner)) es, rem₂)
        | none => none
      | none => none
    else none

/-- Apply a fallible parse to every entry, failing when any entry fails. -/
def mapOption (f : α → Option β) : List α → Option (List β)
  | [] => some []
  | a :: as =>
    match f a, mapOption f as with
    | some b, some bs => some (b :: bs)
    | _, _ => none

/-- Modelled from the spec: `Script::parse` over characters.  The text must
consist of newline-terminated lines; fully blank lines are discarded. -/
def parseScriptChars (cs : List Char) : Option Script :=
  let ls := splitLines cs
  if ls.getLast? = some [] then
    match mapOption parseIndentedLine (ls.dropLast.filter (fun l => !l.isEmpty)) with
    | some parsed =>
      match parseElemsF (2 * parsed.length + 2) 0 parsed with
      | some (els, []) => some els
      | some (_, _ :: _) => none
      | none => none
    | none => none
  else none

/-- Modelled from the spec: `Script::parse`. -/
def Script.parse (s : String) : Option Script :=
  parseScriptChars s.data

/-- `n` repetitions of the `"    "` unit written by
`Block::fmt_with_indent`. -/
def indentChars : Nat → List Char
  | 0 => []
  | n + 1 => ' ' :: ' ' :: ' ' :: ' ' :: indentChars n

/-- `Display for Command`: optional `prefix ` then `|name|` then optional
` suffix`. -/
def commandChars (c : Command) : List Char :=
  (match c.pfx with | some p => p.data ++ [' '] | none => []) ++
    '|' :: c.name.data ++ '|' ::
      (match c.sfx with | some s => ' ' :: s.data | none => [])

/-- `Display for Marker`: `%name%`. -/
def markerChars (name : String) : List Char :=
  '%' :: name.data ++ ['%']

/-- `Display for Line`: the command or marker, then the `writeln!`
newline. -/
def lineChars : Line → List Char
  | .command c => commandChars c ++ ['\n']
  | .marker m => markerChars m ++ ['\n']

/-- Modelled from the spec (the `script/comment.rs` source is missing):
`//`, the comment text, and the terminating newline. -/
def commentChars (t : String) : List Char :=
  '/' :: '/' :: t.data ++ ['\n']

mutual

/-- The per-element body of the loop in `Block::fmt_with_indent`: nested
blocks format one level deeper, lines and comments are prefixed by the
indent unit repeated `ind` times. -/
def fmtElem : TopLevelElement → Nat → List Char
  | .line l, ind => indentChars ind ++ lineChars l
  | .comment t, ind => indentChars ind ++ commentChars t
  | .block b, ind => fmtBlock b (ind + 1)

/-- `Block::fmt_with_indent`. -/
def fmtBlock : Block → Nat → List Char
  | .nil, _ => []
  | .cons e es, ind => fmtElem e ind ++ fmtBlock es ind

end

/-- `Display for TopLevelElement` at the top level of a script: a block
formats itself with indent 1, lines and comments carry no indent. -/
def topElemChars : TopLevelElement → List Char
  | .line l => lineChars l
  | .block b => fmtBlock b 1
  | .comment t => commentChars t

/-- `Display for Script`: each top-level element in order. -/
def scriptChars : Script → List Char
  | .nil => []
  | .cons e es => topElemChars e ++ scriptChars es

/-- `Script::to_string`. -/
def Script.toString (els : Script) : String :=
  String.mk (scriptChars els)

mutual

/-- The levelled line an element occupies when formatted at level `d`. -/
def renderElem : TopLevelElement → Nat → List (Nat × FlatLine)
  | .line l, d => [(d, .line l)]
  | .comment t, d => [(d, .comment t)]
  | .block b, d => renderBlock b (d + 1)

/-- The levelled lines a formatted element sequence occupies, used to relate
the parser to the formatter. -/
def renderBlock : Block → Nat → List (Nat × FlatLine)
  | .nil, _ => []
  | .cons e es, d => renderElem e d ++ renderBlock es d

end

/-- The characters of one parsed line's content (no indent, no newline). -/
def renderFlatChars : FlatLine → List Char
  | .line (.command c) => commandChars c
  | .line (.marker m) => markerChars m
  | .comment t => '/' :: '/' :: t.data

/-- The full text of one levelled line (indent and content, no newline). -/
def lineEntryChars (p : Nat × FlatLine) : List Char :=
  indentChars p.1 ++ renderFlatChars p.2

/-- A script text has no fully blank line (the round-trip hypothesis: the
parser discards blank lines, so they cannot be reproduced). -/
abbrev noBlankLines (s : String) : Prop :=
  ∀ l ∈ (splitLines s.data).dropLast, l ≠ []

/-! ## Concrete inputs used by evaluations and witnesses -/

/-- A choice command. -/
def cmdChoice : Command := ⟨"CHOICE", none, some "opt"⟩

/-- A speech command. -/
def cmdSayA : Command := ⟨"SAY", some "A", some "hi"⟩

/-- A second speech command. -/
def cmdSayB : Command := ⟨"SAY", some "B", some "bye"⟩

/-- A tree holding a single root choice command (id 0). -/
def treeOneChoice : Tree Command :=
  ((Tree.new Command).push cmdChoice).1

/-- An engine awaiting a choice among the single node 0. -/
def stAwaitOne : StateTree :=
  { tree := treeOneChoice, markerToNodeId := [],
    state := .awaitingChoice [0], tickCount := 0 }

/-- An engine positioned on the childless choice node 0. -/
def stAtChoice : StateTree :=
  { tree := treeOneChoice, markerToNodeId := [],
    state := .awaitingTick 0, tickCount := 0 }

/-- A finished engine. -/
def stDone : StateTree :=
  { tree := treeOneChoice, markerToNodeId := [], state := .done,
    tickCount := 3 }

/-- The document of claim C1: a command line followed by a block holding a
single command line. -/
def docBlockAfterLine : Script :=
  Block.ofList
    [.line (.command cmdSayA), .block (Block.ofList [.line (.command cmdSayB)])]

/-- Two consecutive root-level pushes (claim C4). -/
def treeTwoRoots : Tree String :=
  (((Tree.new String).push "A").1.push "B").1

/-- The script text of claim C2 (newline-terminated). -/
def scriptC2 : String :=
  "%START%\nA |SAY| \"hi\"\n|CHOICE| \"yes\"\n    B |SAY| \"ok\"\n|CHOICE| \"no\"\n    B |SAY| \"not ok\"\n%END%\n"

/-- The document the spec-modelled parser produces for `scriptC2`. -/
def docC2 : Script :=
  Block.ofList
    [.line (.marker "START"),
     .line (.command ⟨"SAY", some "A", some "\"hi\""⟩),
     .line (.command ⟨"CHOICE", none, some "\"yes\""⟩),
     .block (Block.ofList [.line (.command ⟨"SAY", some "B", some "\"ok\""⟩)]),
     .line (.command ⟨"CHOICE", none, some "\"no\""⟩),
     .block (Block.ofList [.line (.command ⟨"SAY", some "B", some "\"not ok\""⟩)]),
     .line (.marker "END")]

/-- A small well-formed script text for the round-trip witness. -/
def scriptSmall : String :=
  "%START%\nA |SAY| hi\n    |CHOICE| go\n%END%\n"

/-- The document the spec-modelled parser produces for `scriptSmall`. -/
def docSmall : Script :=
  Block.ofList
    [.line (.marker "START"),
     .line (.command ⟨"SAY", some "A", some "hi"⟩),
     .block (Block.ofList [.line (.command ⟨"CHOICE", none, some "go"⟩)]),
     .line (.marker "END")]

/-- A document whose only elements are a marker and a comment (claim C10). -/
def docNoCommands : Script :=
  Block.ofList [.line (.marker "START"), .comment " nothing here"]

/-- The engine `StateTree::new` builds from `docBlockAfterLine` (both
commands are roots; the block produced no parent/child relationship). -/
def stBlockBuilt : StateTree :=
  { tree := { branches := [(0, cmdSayA), (1, cmdSayB)],
              parentChildRelationships := [], nextId := 2 },
    markerToNodeId := [], state := .awaitingTick 0, tickCount := 0 }

/-- The engine `StateTree::new` builds from `docC2` (a flat tree of five
root commands; only `START` is bound, `END` stays pending forever). -/
def stC2Built : StateTree :=
  { tree :=
      { branches :=
          [(0, ⟨"SAY", some "A", some "\"hi\""⟩),
           (1, ⟨"CHOICE", none, some "\"yes\""⟩),
           (2, ⟨"SAY", some "B", some "\"ok\""⟩),
           (3, ⟨"CHOICE", none, some "\"no\""⟩),
           (4, ⟨"SAY", some "B", some "\"not ok\""⟩)],
        parentChildRelationships := [], nextId := 5 },
    markerToNodeId := [("START", 0)], state := .awaitingTick 0,
    tickCount := 0 }

/-! ## Theorems -/

/-- Claim C1 (evaluation): for the document "command line, then a block
holding one command line", the builder allocates the block's command (id 1)
with *no* parent and records no parent/child relationship at all, so it is a
root-level sibling of the preceding line's node (id 0), not its child.  The
`Block` arm of `traverse` passes `parent` through unchanged instead of the
just-allocated `last_id`, contradicting the claim. -/
theorem block_commands_are_siblings_not_children :
    (StateTree.new docBlockAfterLine).map
      (fun st => (st.tree.parentOf 1, st.tree.childrenOf 0,
        st.tree.parentChildRelationships, st.tree.branches.length)) =
    some (none, [], [], 2) := by decide

/-- Claim C4 (evaluation): after two consecutive root-level `push` calls
(ids 0 and 1), `next 0` returns `none`, not node 1: `next_sibling_of`
requires a parent relationship, which root nodes lack.  This contradicts the
claim (and the tree's own unit test `test_tree_method_next`). -/
theorem next_of_first_root_is_none :
    treeTwoRoots.branches = [(0, "A"), (1, "B")] ∧
    treeTwoRoots.next 0 = none := by decide

/-- Claim C5 (counterexample): from `AwaitingChoice([0])`, `choose 1` does
not fail with an error - the unchecked indexing `children[choice]` panics. -/
theorem choose_out_of_range_is_panic_not_error :
    (stAwaitOne.choose 1).2 = ChooseResult.panic ∧
    ((stAwaitOne.choose 1).2).isErr = false := by decide

/-- Claim C5 (amended): from `AwaitingChoice(nodes)`, an in-range index
returns `Ok` and transitions to `AwaitingTick(nodes[index])`; an out-of-range
index terminates abnormally (the vector indexing panics) instead of
returning an error. -/
theorem choose_in_range_ok_out_of_range_panics :
    ∀ (st : StateTree) (nodes : List NodeId) (i : Nat),
      st.state = .awaitingChoice nodes →
      (∀ n, nodes[i]? = some n →
        st.choose i = ({ st with state := .awaitingTick n }, .ok)) ∧
      (nodes[i]? = none → st.choose i = (st, .panic)) := by
  intro st nodes i h
  constructor
  · intro n hn
    simp [StateTree.choose, h, hn]
  · intro hn
    simp [StateTree.choose, h, hn]

/-- Witness for `choose_in_range_ok_out_of_range_panics` at a concrete
engine: index 0 into a one-option choice succeeds, index 2 panics. -/
theorem choose_in_range_ok_out_of_range_panics_witness :
    stAwaitOne.choose 0 = ({ stAwaitOne with state := .awaitingTick 0 }, .ok) ∧
    stAwaitOne.choose 2 = (stAwaitOne, .panic) :=
  ⟨(choose_in_range_ok_out_of_range_panics stAwaitOne [0] 0 rfl).1 0 rfl,
   (choose_in_range_ok_out_of_range_panics stAwaitOne [0] 2 rfl).2 rfl⟩

/-- Claim C6: `tick` during `AwaitingChoice` and `choose` during
`AwaitingTick` or `Done` return errors and leave the whole engine (state,
tick counter, tree, marker table) unchanged. -/
theorem illegal_state_calls_error_and_preserve_engine :
    ∀ (stA stT stD : StateTree) (ns : List NodeId) (n : NodeId) (i j : Nat),
      stA.state = .awaitingChoice ns →
      stT.state = .awaitingTick n →
      stD.state = .done →
      stA.tick =
        (stA, .error "a choice must be made before tick can be called again") ∧
      stT.choose i =
        (stT, .err "a choice may not be made until one is presented") ∧
      stD.choose j =
        (stD, .err "a choice may not be made after the script has ended") := by
  intro stA stT stD ns n i j hA hT hD
  refine ⟨?_, ?_, ?_⟩
  · simp [StateTree.tick, hA]
  · simp [StateTree.choose, hT]
  · simp [StateTree.choose, hD]

/-- Witness for `illegal_state_calls_error_and_preserve_engine` at concrete
engines in each of the three states. -/
theorem illegal_state_calls_error_and_preserve_engine_witness :
    stAwaitOne.tick =
      (stAwaitOne, .error "a choice must be made before tick can be called again") ∧
    stAtChoice.choose 5 =
      (stAtChoice, .err "a choice may not be made until one is presented") ∧
    stDone.choose 0 =
      (stDone, .err "a choice may not be made after the script has ended") :=
  illegal_state_calls_error_and_preserve_engine stAwaitOne stAtChoice stDone
    [0] 0 5 0 rfl rfl rfl

/-- Claim C8: from `Done`, `tick` returns `Ok` with an empty command list,
does not advance the tick counter, and leaves the engine (hence the `Done`
state) unchanged, so repeated ticks all return this same empty result. -/
theorem done_tick_empty_and_idempotent :
    ∀ st : StateTree, st.state = .done →
      st.tick = (st, .ok { number := st.tickCount, commands := [] }) := by
  intro st h
  simp [StateTree.tick, h]

/-- Witness for `done_tick_empty_and_idempotent` at a concrete finished
engine. -/
theorem done_tick_empty_and_idempotent_witness :
    stDone.tick = (stDone, .ok { number := stDone.tickCount, commands := [] }) :=
  done_tick_empty_and_idempotent stDone rfl

/-- Claim C9: ticking a childless node holding a choice command moves the
engine to `AwaitingChoice` with an empty option list, from which every
`choose` call panics on the empty indexing and hence never succeeds. -/
theorem leaf_choice_awaits_empty_and_unresolvable :
    ∀ (st : StateTree) (id : NodeId) (c : Command),
      st.state = .awaitingTick id →
      st.tree.childrenOf id = [] →
      st.tree.getById id = some c →
      c.isChoice = true →
      (st.tick.1.state = .awaitingChoice [] ∧
       ∀ i, (st.tick.1.choose i).2 = ChooseResult.panic) := by
  intro st id c h1 h2 h3 h4
  have hstate : st.tick.1.state = .awaitingChoice [] := by
    simp [StateTree.tick, h1, h2, h3, h4]
  refine ⟨hstate, fun i => ?_⟩
  cases i <;> simp [StateTree.choose, hstate]

/-- Witness for `leaf_choice_awaits_empty_and_unresolvable` at a concrete
engine positioned on a childless choice node. -/
theorem leaf_choice_awaits_empty_and_unresolvable_witness :
    stAtChoice.tick.1.state = .awaitingChoice [] ∧
    (stAtChoice.tick.1.choose 0).2 = ChooseResult.panic :=
  ⟨(leaf_choice_awaits_empty_and_unresolvable stAtChoice 0 cmdChoice
      rfl rfl rfl rfl).1,
   (leaf_choice_awaits_empty_and_unresolvable stAtChoice 0 cmdChoice
      rfl rfl rfl rfl).2 0⟩

/-- Claim C2 (evaluation): parsing the scenario script and building the
engine, the first tick emits `A |SAY| "hi"` but leaves the engine `Done`
(the flat tree has no parent/child edges, and `next` fails on roots), so the
second tick returns an empty result instead of the first `CHOICE`
command - contradicting the claimed scenario. -/
theorem scenario_second_tick_empty_not_choice :
    Script.parse scriptC2 = some docC2 ∧
    (StateTree.new docC2).map (fun st =>
      (st.tick.2, st.tick.1.state, st.tick.1.tick.2, st.tick.1.tick.1.state)) =
    some (.ok { number := 0, commands := [⟨"SAY", some "A", some "\"hi\""⟩] },
          .done, .ok { number := 1, commands := [] }, .done) := by
  exact ⟨by rfl, by rfl⟩

/-! ## The builder as a fold over the flattened line sequence -/

/-- `flatLineFold` distributes over list append. -/
theorem flatLineFold_append (a b : List Line) :
    ∀ st : BuildState, flatLineFold st (a ++ b) = flatLineFold (flatLineFold st a) b := by
  induction a with
  | nil => intro st; rfl
  | cons l rest ih => intro st; simp only [List.cons_append, flatLineFold]; exact ih _

mutual

/-- `traverse` with `parent = None` (the only way it is ever called) acts on
an element exactly as the flat fold over the element's flattened lines. -/
theorem traverseElem_eq_flat :
    ∀ (e : TopLevelElement) (st : BuildState),
      traverseElem none st e = flatLineFold st (flattenElem e)
  | .line (.command c), st => by
    simp [traverseElem, flattenElem, flatLineFold, flatLineStep]
  | .line (.marker m), st => by
    simp [traverseElem, flattenElem, flatLineFold, flatLineStep]
  | .block inner, st => by
    simp only [traverseElem, flattenElem]
    exact traverseList_eq_flat inner st
  | .comment t, st => by
    simp [traverseElem, flattenElem, flatLineFold]

/-- `traverse` iterated over an element sequence equals the flat fold over
the flattened lines. -/
theorem traverseList_eq_flat :
    ∀ (es : Block) (st : BuildState),
      traverseList none st es = flatLineFold st (flattenList es)
  | .nil, st => by simp [traverseList, flattenList, flatLineFold]
  | .cons e es, st => by
    rw [traverseList, flattenList, flatLineFold_append,
      ← traverseElem_eq_flat e st]
    exact traverseList_eq_flat es _

end

/-- `commandsOf` on a command cons. -/
theorem commandsOf_cons_command (c : Command) (xs : List Line) :
    commandsOf (.command c :: xs) = c :: commandsOf xs := by
  simp [commandsOf]

/-- `commandsOf` on a marker cons. -/
theorem commandsOf_cons_marker (m : String) (xs : List Line) :
    commandsOf (.marker m :: xs) = commandsOf xs := by
  simp [commandsOf]

/-- `countCommands` on a command cons. -/
theorem countCommands_cons_command (c : Command) (xs : List Line) :
    countCommands (.command c :: xs) = countCommands xs + 1 := by
  simp [countCommands, Line.isCommand]

/-- `countCommands` on a marker cons. -/
theorem countCommands_cons_marker (m : String) (xs : List Line) :
    countCommands (.marker m :: xs) = countCommands xs := by
  simp [countCommands, Line.isCommand]

/-- The flat fold appends exactly the enumerated command branches to the
tree. -/
theorem flatLineFold_branches (ls : List Line) :
    ∀ st : BuildState,
      (flatLineFold st ls).tree.branches =
        st.tree.branches ++ enumFromN st.tree.nextId (commandsOf ls) := by
  induction ls with
  | nil => intro st; simp [flatLineFold, commandsOf, enumFromN]
  | cons l rest ih =>
    intro st
    match l with
    | .command c =>
      rw [flatLineFold, ih]
      simp [flatLineStep, Tree.push, commandsOf, enumFromN]
    | .marker m =>
      rw [flatLineFold, ih]
      simp [flatLineStep, commandsOf_cons_marker]

/-- The flat fold never records a parent/child relationship. -/
theorem flatLineFold_relationships (ls : List Line) :
    ∀ st : BuildState,
      (flatLineFold st ls).tree.parentChildRelationships =
        st.tree.parentChildRelationships := by
  induction ls with
  | nil => intro st; rfl
  | cons l rest ih =>
    intro st
    match l with
    | .command c => rw [flatLineFold, ih]; rfl
    | .marker m => rw [flatLineFold, ih]; rfl

/-- Claim C10: a document without command lines yields an empty arena tree,
so `StateTree::new` panics unwrapping `tree.first()` (modelled as `none`)
and returns no engine; consequently every engine `StateTree::new` does
return starts in `AwaitingTick`, never in `Done`. -/
theorem no_commands_no_engine_and_never_starts_done :
    (∀ doc : Script, commandsOf (flattenList doc) = [] →
      (traverseList none BuildState.init doc).tree.branches = [] ∧
      StateTree.new doc = none) ∧
    (∀ (doc : Script) (st : StateTree), StateTree.new doc = some st →
      ∃ id : NodeId, st.state = .awaitingTick id) := by
  constructor
  · intro doc h
    have hb : (traverseList none BuildState.init doc).tree.branches = [] := by
      rw [traverseList_eq_flat, flatLineFold_branches, h]
      rfl
    refine ⟨hb, ?_⟩
    unfold StateTree.new
    simp [Tree.first, hb]
  · intro doc st h
    simp only [StateTree.new] at h
    cases hf : (traverseList none BuildState.init doc).tree.first with
    | none => rw [hf] at h; simp at h
    | some p =>
      rw [hf] at h
      simp only [Option.map, Option.some.injEq] at h
      exact ⟨p.1, by rw [← h]⟩

/-- Witness for `no_commands_no_engine_and_never_starts_done`: the
marker-and-comment document builds no engine; the engine built from
`docBlockAfterLine` starts awaiting a tick. -/
theorem no_commands_no_engine_and_never_starts_done_witness :
    StateTree.new docNoCommands = none ∧
    ∃ id : NodeId, stBlockBuilt.state = .awaitingTick id :=
  ⟨(no_commands_no_engine_and_never_starts_done.1 docNoCommands rfl).2,
   no_commands_no_engine_and_never_starts_done.2 docBlockAfterLine stBlockBuilt
     rfl⟩

/-- `lookupA` at a cons cell. -/
theorem lookupA_cons (k : String) (v : NodeId) (rest : List (String × NodeId))
    (k₂ : String) :
    lookupA ((k, v) :: rest) k₂ = if k₂ = k then some v else lookupA rest k₂ := by
  by_cases h : k₂ = k
  · subst h; simp [lookupA, List.find?]
  · have h' : ¬k = k₂ := fun hh => h hh.symm
    simp [lookupA, List.find?, h, h']

/-- `lookupA` after `insertA`: the inserted key wins, others unchanged. -/
theorem lookupA_insertA (l : List (String × NodeId)) (k : String) (v : NodeId)
    (k₂ : String) :
    lookupA (insertA l k v) k₂ = if k₂ = k then some v else lookupA l k₂ := by
  induction l with
  | nil => rw [insertA, lookupA_cons]
  | cons p rest ih =>
    obtain ⟨k₀, v₀⟩ := p
    by_cases h1 : k₀ = k
    · subst h1
      simp only [insertA, eq_self_iff_true, if_true]
      rw [lookupA_cons, lookupA_cons]
      by_cases h2 : k₂ = k₀ <;> simp [h2]
    · simp only [insertA, if_neg h1]
      rw [lookupA_cons, lookupA_cons, ih]
      by_cases h2 : k₂ = k₀
      · subst h2
        have h3 : ¬k₂ = k := fun hh => h1 (hh ▸ rfl)
        simp [h3]
      · simp [h2]

/-- Soundness of the marker table produced by the flat fold: every binding
either pre-exists, resolves the pending marker against a leading command, or
comes from a marker line immediately followed by a command line, and it maps
to the id the following command receives. -/
theorem flatLineFold_table_sound :
    ∀ (ls : List Line) (st : BuildState) (name : String) (id : NodeId),
      lookupA (flatLineFold st ls).markerToNodeId name = some id →
      lookupA st.markerToNodeId name = some id ∨
      (st.markerAwaiting = some name ∧ (∃ c rest, ls = .command c :: rest) ∧
        id = st.tree.nextId) ∨
      (∃ i c, ls[i]? = some (.marker name) ∧ ls[i + 1]? = some (.command c) ∧
        id = st.tree.nextId + countCommands (ls.take (i + 1))) := by
  intro ls
  induction ls with
  | nil => intro st name id h; exact Or.inl h
  | cons l rest ih =>
    intro st name id h
    rw [flatLineFold] at h
    cases l with
    | marker m =>
      rcases ih (flatLineStep st (.marker m)) name id h with
        h1 | ⟨hp, ⟨c, rest', hr⟩, hid⟩ | ⟨i, c, hi, hi1, hid⟩
      · exact Or.inl h1
      · have hm : m = name := by simpa [flatLineStep] using hp
        right; right
        refine ⟨0, c, by simp [hm], by rw [hr]; simp, ?_⟩
        have hid' : id = st.tree.nextId := hid
        simp [List.take_succ_cons, countCommands_cons_marker, countCommands,
          Line.isCommand, hid']
      · right; right
        refine ⟨i + 1, c, by simpa using hi, by simpa using hi1, ?_⟩
        have hid' : id = st.tree.nextId +
            countCommands (rest.take (i + 1)) := hid
        simp [List.take_succ_cons, countCommands_cons_marker, hid']
    | command c =>
      cases hma : st.markerAwaiting with
      | none =>
        rcases ih (flatLineStep st (.command c)) name id h with
          h1 | ⟨hp, _, _⟩ | ⟨i, c', hi, hi1, hid⟩
        · left
          simpa [flatLineStep, hma] using h1
        · exact absurd hp (by simp [flatLineStep])
        · right; right
          refine ⟨i + 1, c', by simpa using hi, by simpa using hi1, ?_⟩
          have hid' : id = st.tree.nextId + 1 +
              countCommands (rest.take (i + 1)) := by
            simpa [flatLineStep, Tree.push] using hid
          rw [List.take_succ_cons, countCommands_cons_command, hid']
          ring
      | some m =>
        rcases ih (flatLineStep st (.command c)) name id h with
          h1 | ⟨hp, _, _⟩ | ⟨i, c', hi, hi1, hid⟩
        · have h1' : lookupA (insertA st.markerToNodeId m st.tree.nextId)
              name = some id := by
            simpa [flatLineStep, hma, Tree.push] using h1
          rw [lookupA_insertA] at h1'
          by_cases hn : name = m
          · rw [if_pos hn] at h1'
            right; left
            refine ⟨by rw [hn], ⟨c, rest, rfl⟩, ?_⟩
            exact (Option.some.injEq _ _ ▸ h1').symm
          · rw [if_neg hn] at h1'
            exact Or.inl h1'
        · exact absurd hp (by simp [flatLineStep])
        · right; right
          refine ⟨i + 1, c', by simpa using hi, by simpa using hi1, ?_⟩
          have hid' : id = st.tree.nextId + 1 +
              countCommands (rest.take (i + 1)) := by
            simpa [flatLineStep, Tree.push] using hid
          rw [List.take_succ_cons, countCommands_cons_command, hid']
          ring

/-- `find?` on an enumeration finds exactly the indexed element. -/
theorem find_enumFromN :
    ∀ (cs : List Command) (n k : Nat) (c : Command), cs[k]? = some c →
      (enumFromN n cs).find? (fun b => b.1 = n + k) = some (n + k, c) := by
  intro cs
  induction cs with
  | nil => intro n k c h; simp at h
  | cons c₀ rest ih =>
    intro n k c h
    cases k with
    | zero =>
      simp only [List.getElem?_cons_zero, Option.some.injEq] at h
      simp [enumFromN, List.find?, h]
    | succ k' =>
      have he : n + (k' + 1) = (n + 1) + k' := by omega
      rw [enumFromN, List.find?_cons_of_neg _ (by simp), he]
      exact ih (n + 1) k' c (by simpa using h)

/-- The command at line position `j` is the `countCommands (take j)`-th
command. -/
theorem commandsOf_getElem :
    ∀ (ls : List Line) (j : Nat) (c : Command),
      ls[j]? = some (.command c) →
      (commandsOf ls)[countCommands (ls.take j)]? = some c := by
  intro ls
  induction ls with
  | nil => intro j c h; simp at h
  | cons l rest ih =>
    intro j c h
    cases j with
    | zero =>
      simp only [List.getElem?_cons_zero, Option.some.injEq] at h
      subst h
      simp [commandsOf_cons_command, countCommands]
    | succ j' =>
      have h' : rest[j']? = some (.command c) := by simpa using h
      cases l with
      | command c₀ =>
        rw [List.take_succ_cons, countCommands_cons_command,
          commandsOf_cons_command]
        simpa using ih j' c h'
      | marker m =>
        rw [List.take_succ_cons, countCommands_cons_marker,
          commandsOf_cons_marker]
        exact ih j' c h'

/-- `get_by_id` on a tree whose branches are an enumeration from 0. -/
theorem getById_of_branches_enum :
    ∀ (t : Tree Command) (cs : List Command) (id : Nat) (c : Command),
      t.branches = enumFromN 0 cs → cs[id]? = some c →
      t.getById id = some c := by
  intro t cs id c hb h
  unfold Tree.getById
  rw [hb]
  have hfind := find_enumFromN cs 0 id c h
  rw [Nat.zero_add] at hfind
  rw [hfind]
  rfl

/-- Claim C7: `goto` on a name present in the marker table returns `Ok` and
overwrites the state to `AwaitingTick` of the bound node regardless of the
current state; on an absent name it returns the unknown-marker error and
leaves the engine unchanged; and in every engine built by `StateTree::new`
the bound node is the node holding the command that immediately follows the
marker in document order. -/
theorem goto_overwrites_state_and_resolves_following_command :
    (∀ (st : StateTree) (name : String) (id : NodeId),
      lookupA st.markerToNodeId name = some id →
      st.goto name = ({ st with state := .awaitingTick id }, .ok ())) ∧
    (∀ (st : StateTree) (name : String),
      lookupA st.markerToNodeId name = none →
      st.goto name = (st, .error "marker does not exist")) ∧
    (∀ (doc : Script) (st : StateTree) (name : String) (id : NodeId),
      StateTree.new doc = some st →
      lookupA st.markerToNodeId name = some id →
      ∃ i c, (flattenList doc)[i]? = some (.marker name) ∧
        (flattenList doc)[i + 1]? = some (.command c) ∧
        id = countCommands ((flattenList doc).take (i + 1)) ∧
        st.tree.getById id = some c) := by
  refine ⟨?_, ?_, ?_⟩
  · intro st name id h
    simp [StateTree.goto, h]
  · intro st name h
    simp [StateTree.goto, h]
  · intro doc st name id hnew hlook
    simp only [StateTree.new] at hnew
    cases hf : (traverseList none BuildState.init doc).tree.first with
    | none => rw [hf] at hnew; simp at hnew
    | some p =>
      rw [hf] at hnew
      simp only [Option.map, Option.some.injEq] at hnew
      have htable : st.markerToNodeId =
          (traverseList none BuildState.init doc).markerToNodeId := by
        rw [← hnew]
      have htree : st.tree = (traverseList none BuildState.init doc).tree := by
        rw [← hnew]
      rw [htable, traverseList_eq_flat] at hlook
      rcases flatLineFold_table_sound (flattenList doc) BuildState.init name id
          hlook with h1 | ⟨hp, _, _⟩ | ⟨i, c, hi, hi1, hid⟩
      · exact absurd h1 (by simp [BuildState.init, lookupA, List.find?])
      · exact absurd hp (by simp [BuildState.init])
      · have hid' : id = countCommands ((flattenList doc).take (i + 1)) := by
          simpa [BuildState.init, Tree.new] using hid
        refine ⟨i, c, hi, hi1, hid', ?_⟩
        have hbranches : (traverseList none BuildState.init doc).tree.branches =
            enumFromN 0 (commandsOf (flattenList doc)) := by
          rw [traverseList_eq_flat, flatLineFold_branches]
          rfl
        have hcmd := commandsOf_getElem (flattenList doc) (i + 1) c hi1
        rw [htree]
        exact getById_of_branches_enum _ _ id c hbranches (hid' ▸ hcmd)

/-- Witness for `goto_overwrites_state_and_resolves_following_command` on
the engine built from the scenario document: `goto "START"` repositions the
engine at node 0, `goto "NOPE"` fails, and the `START` binding points at the
command line right after the marker. -/
theorem goto_overwrites_state_witness :
    stC2Built.goto "START" =
      ({ stC2Built with state := .awaitingTick 0 }, .ok ()) ∧
    stC2Built.goto "NOPE" = (stC2Built, .error "marker does not exist") ∧
    ∃ i c, (flattenList docC2)[i]? = some (.marker "START") ∧
      (flattenList docC2)[i + 1]? = some (.command c) ∧
      0 = countCommands ((flattenList docC2).take (i + 1)) ∧
      stC2Built.tree.getById 0 = some c :=
  ⟨goto_overwrites_state_and_resolves_following_command.1 stC2Built "START" 0
      rfl,
   goto_overwrites_state_and_resolves_following_command.2.1 stC2Built "NOPE"
      rfl,
   goto_overwrites_state_and_resolves_following_command.2.2 docC2 stC2Built
      "START" 0 rfl rfl⟩

/-! ## Round-trip: splitting and joining lines -/

/-- `splitLines` always returns at least one entry. -/
theorem splitLines_ne_nil : ∀ cs : List Char, splitLines cs ≠ [] := by
  intro cs
  induction cs with
  | nil => simp [splitLines]
  | cons c rest ih =>
    rw [splitLines]
    cases h : splitLines rest with
    | nil => exact absurd h ih
    | cons l ls => by_cases hc : c = '\n' <;> simp [hc]

/-- `joinLines` on a two-or-more list. -/
theorem joinLines_cons₂ (l l₂ : List Char) (ls : List (List Char)) :
    joinLines (l :: l₂ :: ls) = l ++ '\n' :: joinLines (l₂ :: ls) := rfl

/-- `joinLines` undoes `splitLines`. -/
theorem joinLines_splitLines : ∀ cs : List Char, joinLines (splitLines cs) = cs := by
  intro cs
  induction cs with
  | nil => rfl
  | cons c rest ih =>
    cases h : splitLines rest with
    | nil => exact absurd h (splitLines_ne_nil rest)
    | cons l ls =>
      rw [h] at ih
      rw [splitLines, h]
      dsimp only
      by_cases hc : c = '\n'
      · rw [if_pos hc, hc, joinLines_cons₂, ih]
        rfl
      · rw [if_neg hc]
        cases ls with
        | nil => exact congrArg (fun x => c :: x) ih
        | cons l₂ ls₂ =>
          rw [joinLines_cons₂] at ih
          rw [joinLines_cons₂, List.cons_append, ih]

/-- Joining a body terminated by one empty entry appends a newline to every
body line. -/
theorem joinLines_append_empty :
    ∀ body : List (List Char),
      joinLines (body ++ [[]]) = (body.map (fun l => l ++ ['\n'])).flatten := by
  intro body
  induction body with
  | nil => rfl
  | cons l rest ih =>
    cases rest with
    | nil => simp [joinLines]
    | cons l₂ ls =>
      simp only [List.cons_append] at ih ⊢
      rw [joinLines_cons₂, ih]
      simp

/-! ## Round-trip: one line -/

/-- `stripIndent` decomposes a line into its indent and its content. -/
theorem stripIndent_eq :
    ∀ l : List Char, indentChars (stripIndent l).1 ++ (stripIndent l).2 = l := by
  intro l
  induction l using stripIndent.induct with
  | case1 rest k content heq ih =>
    rw [heq] at ih
    rw [stripIndent, heq]
    dsimp only
    rw [indentChars]
    simp only [List.cons_append]
    rw [ih]
  | case2 cs h =>
    rw [stripIndent.eq_def]
    split
    · exact (h _ rfl).elim
    · simp [indentChars]

/-- `splitPipe` decomposes at the first pipe. -/
theorem splitPipe_eq :
    ∀ (cs a b : List Char), splitPipe cs = some (a, b) → cs = a ++ '|' :: b := by
  intro cs
  induction cs with
  | nil => intro a b h; simp [splitPipe] at h
  | cons c rest ih =>
    intro a b h
    rw [splitPipe] at h
    by_cases hc : c = '|'
    · rw [if_pos hc] at h
      simp only [Option.some.injEq, Prod.mk.injEq] at h
      rw [← h.1, ← h.2, hc]
      rfl
    · rw [if_neg hc] at h
      cases hs : splitPipe rest with
      | none => rw [hs] at h; simp at h
      | some p =>
        rw [hs] at h
        simp only [Option.map, Option.some.injEq, Prod.mk.injEq] at h
        obtain ⟨a₀, b₀⟩ := p
        obtain ⟨h1, h2⟩ := h
        rw [← h1, ← h2]
        simpa using congrArg (c :: ·) (ih a₀ b₀ hs)

/-- `parsePfx` reconstruction. -/
theorem parsePfx_eq :
    ∀ (cs : List Char) (o : Option String), parsePfx cs = some o →
      (match o with | none => cs = [] | some p => cs = p.data ++ [' ']) := by
  intro cs o h
  rw [parsePfx] at h
  by_cases he : cs.isEmpty
  · rw [if_pos he] at h
    simp only [Option.some.injEq] at h
    subst h
    simpa using he
  · rw [if_neg he] at h
    by_cases hl : cs.getLast? = some ' '
    · rw [if_pos hl] at h
      by_cases hd : cs.dropLast.isEmpty
      · rw [if_pos hd] at h; exact absurd h (by simp)
      · rw [if_neg hd] at h
        simp only [Option.some.injEq] at h
        subst h
        simpa using (List.dropLast_append_getLast? ' ' hl).symm
    · rw [if_neg hl] at h; exact absurd h (by simp)

/-- `parseSfx` reconstruction. -/
theorem parseSfx_eq :
    ∀ (cs : List Char) (o : Option String), parseSfx cs = some o →
      (match o with | none => cs = [] | some s => cs = ' ' :: s.data) := by
  intro cs o h
  match cs with
  | [] =>
    simp only [parseSfx, Option.some.injEq] at h
    subst h
    rfl
  | c :: rest =>
    rw [parseSfx] at h
    by_cases hc : c = ' '
    · rw [if_pos hc] at h
      by_cases ha : rest.all (fun ch => ch ≠ '|')
      · rw [if_pos ha] at h
        simp only [Option.some.injEq] at h
        subst h
        rw [hc]
      · rw [if_neg ha] at h; exact absurd h (by simp)
    · rw [if_neg hc] at h; exact absurd h (by simp)

/-- A parsed command formats back to its source text. -/
theorem parseCommand_roundtrip :
    ∀ (cs : List Char) (c : Command), parseCommandChars cs = some c →
      commandChars c = cs := by
  intro cs c h
  rw [parseCommandChars] at h
  cases hs1 : splitPipe cs with
  | none => rw [hs1] at h; simp at h
  | some p1 =>
    obtain ⟨before, rest₁⟩ := p1
    rw [hs1] at h
    dsimp only at h
    cases hs2 : splitPipe rest₁ with
    | none => rw [hs2] at h; simp at h
    | some p2 =>
      obtain ⟨name, rest₂⟩ := p2
      rw [hs2] at h
      dsimp only at h
      by_cases hne : name.isEmpty
      · rw [if_pos hne] at h; simp at h
      · rw [if_neg hne] at h
        cases hall : name.all isNameChar with
        | false => rw [hall] at h; simp at h
        | true =>
          rw [hall] at h
          simp only [Bool.not_true, Bool.false_eq_true, if_false] at h
          cases hp : parsePfx before with
          | none => rw [hp] at h; simp at h
          | some pfxo =>
            cases hq : parseSfx rest₂ with
            | none => rw [hp, hq] at h; simp at h
            | some sfxo =>
              rw [hp, hq] at h
              dsimp only at h
              simp only [Option.some.injEq] at h
              subst h
              rw [commandChars]
              have hb := parsePfx_eq before pfxo hp
              have hs := parseSfx_eq rest₂ sfxo hq
              rw [splitPipe_eq cs before rest₁ hs1,
                splitPipe_eq rest₁ name rest₂ hs2]
              cases pfxo with
              | none =>
                cases sfxo with
                | none =>
                  have hb' : before = [] := hb
                  have hs' : rest₂ = [] := hs
                  simp [hb', hs']
                | some sfx =>
                  have hb' : before = [] := hb
                  have hs' : rest₂ = ' ' :: sfx.data := hs
                  simp [hb', hs']
              | some pfx =>
                cases sfxo with
                | none =>
                  have hb' : before = pfx.data ++ [' '] := hb
                  have hs' : rest₂ = [] := hs
                  simp [hb', hs']
                | some sfx =>
                  have hb' : before = pfx.data ++ [' '] := hb
                  have hs' : rest₂ = ' ' :: sfx.data := hs
                  simp [hb', hs']

/-- A parsed marker formats back to its source text. -/
theorem parseMarker_roundtrip :
    ∀ (cs : List Char) (m : String), parseMarkerChars cs = some m →
      markerChars m = cs := by
  intro cs m h
  match cs with
  | [] => simp [parseMarkerChars] at h
  | c :: rest =>
    rw [parseMarkerChars] at h
    by_cases hc : c = '%'
    · rw [if_pos hc] at h
      cases hl : rest.getLast? with
      | none => rw [hl] at h; simp at h
      | some l =>
        rw [hl] at h
        dsimp only at h
        by_cases he : l = '%'
        · rw [if_pos he] at h
          by_cases hde : rest.dropLast.isEmpty
          · rw [if_pos hde] at h; simp at h
          · rw [if_neg hde] at h
            by_cases hall : rest.dropLast.all isNameChar
            · rw [if_pos hall] at h
              simp only [Option.some.injEq] at h
              subst h
              rw [markerChars, hc]
              have hre := List.dropLast_append_getLast? l hl
              rw [he] at hre
              exact congrArg (fun x => '%' :: x) hre
            · rw [if_neg hall] at h; simp at h
        · rw [if_neg he] at h; simp at h
    · rw [if_neg hc] at h; simp at h

/-- A parsed line content formats back to its source text. -/
theorem parseContent_roundtrip :
    ∀ (cs : List Char) (fl : FlatLine), parseContentChars cs = some fl →
      renderFlatChars fl = cs := by
  intro cs fl h
  match cs with
  | [] => simp [parseContentChars] at h
  | c :: rest =>
    rw [parseContentChars.eq_def] at h
    dsimp only at h
    by_cases hc : c = '/'
    · rw [if_pos hc] at h
      match rest with
      | [] => simp at h
      | c₂ :: rest₂ =>
        dsimp only at h
        by_cases hc₂ : c₂ = '/'
        · rw [if_pos hc₂] at h
          simp only [Option.some.injEq] at h
          subst h
          rw [renderFlatChars, hc, hc₂]
        · rw [if_neg hc₂] at h; simp at h
    · rw [if_neg hc] at h
      by_cases hp : c = '%'
      · rw [if_pos hp] at h
        cases hm : parseMarkerChars (c :: rest) with
        | none => rw [hm] at h; simp at h
        | some m =>
          rw [hm] at h
          simp only [Option.map, Option.some.injEq] at h
          subst h
          rw [renderFlatChars]
          exact parseMarker_roundtrip _ _ hm
      · rw [if_neg hp] at h
        cases hcm : parseCommandChars (c :: rest) with
        | none => rw [hcm] at h; simp at h
        | some cm =>
          rw [hcm] at h
          simp only [Option.map, Option.some.injEq] at h
          subst h
          rw [renderFlatChars]
          exact parseCommand_roundtrip _ _ hcm

/-- A parsed indented line formats back to its source text. -/
theorem parseIndentedLine_roundtrip :
    ∀ (l : List Char) (p : Nat × FlatLine), parseIndentedLine l = some p →
      lineEntryChars p = l := by
  intro l p h
  rw [parseIndentedLine] at h
  cases hc : parseContentChars (stripIndent l).2 with
  | none => rw [hc] at h; simp at h
  | some fl =>
    rw [hc] at h
    simp only [Option.map, Option.some.injEq] at h
    subst h
    rw [lineEntryChars]
    dsimp only
    rw [parseContent_roundtrip _ _ hc, stripIndent_eq]

/-- All parsed lines format back to their source lines. -/
theorem mapOption_roundtrip :
    ∀ (body : List (List Char)) (parsed : List (Nat × FlatLine)),
      mapOption parseIndentedLine body = some parsed →
      parsed.map lineEntryChars = body := by
  intro body
  induction body with
  | nil =>
    intro parsed h
    simp only [mapOption, Option.some.injEq] at h
    subst h
    rfl
  | cons l rest ih =>
    intro parsed h
    rw [mapOption] at h
    cases hf : parseIndentedLine l with
    | none => rw [hf] at h; simp at h
    | some p =>
      rw [hf] at h
      cases hr : mapOption parseIndentedLine rest with
      | none => rw [hr] at h; simp at h
      | some ps =>
        rw [hr] at h
        simp only [Option.some.injEq] at h
        subst h
        simp only [List.map_cons]
        rw [parseIndentedLine_roundtrip _ _ hf, ih _ hr]

/-- A parsed line's element occupies exactly its own levelled line. -/
theorem renderElem_toElem (c : FlatLine) (d : Nat) :
    renderElem (toElem c) d = [(d, c)] := by
  cases c with
  | line l => rfl
  | comment t => rfl

/-- The structure built by `parseElemsF` renders back to exactly the
levelled lines it consumed. -/
theorem parseElems_roundtrip :
    ∀ (fuel d : Nat) (lines rem : List (Nat × FlatLine)) (es : Block),
      parseElemsF fuel d lines = some (es, rem) →
      renderBlock es d ++ rem = lines := by
  intro fuel
  induction fuel with
  | zero =>
    intro d lines rem es h
    match lines with
    | [] =>
      simp only [parseElemsF, Option.some.injEq, Prod.mk.injEq] at h
      obtain ⟨he, hr⟩ := h
      subst he; subst hr
      rfl
    | p :: rest => simp [parseElemsF] at h
  | succ fuel ih =>
    intro d lines rem es h
    match lines with
    | [] =>
      simp only [parseElemsF, Option.some.injEq, Prod.mk.injEq] at h
      obtain ⟨he, hr⟩ := h
      subst he; subst hr
      rfl
    | (l, c) :: rest =>
      rw [parseElemsF] at h
      by_cases h1 : l < d
      · rw [if_pos h1] at h
        simp only [Option.some.injEq, Prod.mk.injEq] at h
        obtain ⟨he, hr⟩ := h
        subst he; subst hr
        rfl
      · rw [if_neg h1] at h
        by_cases h2 : l = d
        · rw [if_pos h2] at h
          cases hrec : parseElemsF fuel d rest with
          | none => rw [hrec] at h; simp at h
          | some pr =>
            obtain ⟨es', rem'⟩ := pr
            rw [hrec] at h
            simp only [Option.some.injEq, Prod.mk.injEq] at h
            obtain ⟨he, hr⟩ := h
            subst he; subst hr
            rw [renderBlock, renderElem_toElem]
            simp only [List.cons_append, List.nil_append, List.append_assoc]
            rw [ih d rest rem' es' hrec, h2]
        · rw [if_neg h2] at h
          by_cases h3 : l = d + 1
          · rw [if_pos h3] at h
            cases hin : parseElemsF fuel (d + 1) rest with
            | none => rw [hin] at h; simp at h
            | some pin =>
              obtain ⟨inner, rem₁⟩ := pin
              rw [hin] at h
              dsimp only at h
              cases hout : parseElemsF fuel d rem₁ with
              | none => rw [hout] at h; simp at h
              | some pout =>
                obtain ⟨es₂, rem₂⟩ := pout
                rw [hout] at h
                simp only [Option.some.injEq, Prod.mk.injEq] at h
                obtain ⟨he, hr⟩ := h
                subst he; subst hr
                have hi := ih (d + 1) rest rem₁ inner hin
                have ho := ih d rem₁ rem₂ es₂ hout
                rw [renderBlock, renderElem, renderBlock, renderElem_toElem]
                simp only [List.cons_append, List.nil_append, List.append_assoc]
                rw [ho, hi, h3]
          · rw [if_neg h3] at h; simp at h

/-- `Display for Line` splits into content plus newline. -/
theorem lineChars_eq (l : Line) :
    lineChars l = renderFlatChars (.line l) ++ ['\n'] := by
  cases l <;> rfl

mutual

/-- One formatted element is its levelled lines, each closed by a newline. -/
theorem fmtElem_eq :
    ∀ (e : TopLevelElement) (ind : Nat),
      fmtElem e ind =
        ((renderElem e ind).map (fun p => lineEntryChars p ++ ['\n'])).flatten
  | .line l, ind => by
    rw [fmtElem, renderElem]
    simp [lineEntryChars, lineChars_eq]
  | .comment t, ind => by
    rw [fmtElem, renderElem]
    simp [lineEntryChars, commentChars, renderFlatChars]
  | .block b, ind => by
    rw [fmtElem, renderElem]
    exact fmtBlock_eq b (ind + 1)

/-- A formatted sequence is its levelled lines, each closed by a newline. -/
theorem fmtBlock_eq :
    ∀ (b : Block) (ind : Nat),
      fmtBlock b ind =
        ((renderBlock b ind).map (fun p => lineEntryChars p ++ ['\n'])).flatten
  | .nil, _ => rfl
  | .cons e es, ind => by
    rw [fmtBlock, renderBlock, fmtElem_eq e ind, fmtBlock_eq es ind]
    simp

end

/-- At the top level the `Display` of an element is its indent-0
formatting. -/
theorem topElemChars_eq (e : TopLevelElement) : topElemChars e = fmtElem e 0 := by
  cases e with
  | line l => rfl
  | block b => rfl
  | comment t => rfl

/-- `Display for Script` equals indent-0 block formatting. -/
theorem scriptChars_eq_fmt : ∀ els : Script, scriptChars els = fmtBlock els 0
  | .nil => rfl
  | .cons e es => by
    rw [scriptChars, fmtBlock, topElemChars_eq, scriptChars_eq_fmt es]

/-- Claim C3: for every script text without fully blank lines that the
parser accepts, formatting the parsed script reproduces the text
byte-for-byte. -/
theorem parse_format_round_trip :
    ∀ (s : String) (sc : Script), noBlankLines s → Script.parse s = some sc →
      Script.toString sc = s := by
  intro s sc hnb hp
  simp only [Script.parse, parseScriptChars] at hp
  by_cases hlast : (splitLines s.data).getLast? = some []
  case neg => rw [if_neg hlast] at hp; simp at hp
  case pos =>
    rw [if_pos hlast] at hp
    have hfilter : (splitLines s.data).dropLast.filter (fun l => !l.isEmpty) =
        (splitLines s.data).dropLast := by
      apply List.filter_eq_self.mpr
      intro l hl
      simpa using hnb l hl
    rw [hfilter] at hp
    cases hmo : mapOption parseIndentedLine (splitLines s.data).dropLast with
    | none => rw [hmo] at hp; simp at hp
    | some parsed =>
      rw [hmo] at hp
      dsimp only at hp
      cases hpe : parseElemsF (2 * parsed.length + 2) 0 parsed with
      | none => rw [hpe] at hp; simp at hp
      | some pr =>
        obtain ⟨els, rem⟩ := pr
        rw [hpe] at hp
        cases rem with
        | cons p ps => simp at hp
        | nil =>
          simp only [Option.some.injEq] at hp
          have hrender : renderBlock els 0 = parsed := by
            have hrt := parseElems_roundtrip (2 * parsed.length + 2) 0 parsed
              [] els hpe
            simpa using hrt
          have hbody : parsed.map lineEntryChars =
              (splitLines s.data).dropLast :=
            mapOption_roundtrip _ parsed hmo
          have hchars : scriptChars els = s.data := by
            rw [scriptChars_eq_fmt, fmtBlock_eq, hrender]
            have hmapmap : parsed.map (fun p => lineEntryChars p ++ ['\n']) =
                (parsed.map lineEntryChars).map (fun l => l ++ ['\n']) := by
              rw [List.map_map]
              rfl
            rw [hmapmap, hbody, ← joinLines_append_empty,
              List.dropLast_append_getLast? [] hlast, joinLines_splitLines]
          rw [← hp, Script.toString, hchars]

/-- Witness for `parse_format_round_trip` at a concrete four-line script
with a nested block. -/
theorem parse_format_round_trip_witness :
    Script.toString docSmall = scriptSmall :=
  parse_format_round_trip scriptSmall docSmall (by decide) (by rfl)

end Dialogue
